import Mathlib

/-!
Verification development for the ability-text classification engine of the
optcDB_Ko repository (`common/data/matchers.js`).

JavaScript objects with string keys are modelled as association lists
(`AList`): property read is the first binding with the key, property write
updates an existing binding in place (keeping its position, as JS does for
existing properties) and otherwise appends at the end (JS insertion order
for new string-keyed properties).  `for ... in` enumeration is list order.

Regular expressions are carried as their source strings, exactly as the
code builds them by string concatenation (every matcher regex in the file
uses the "i" flag).  A small regex engine (`Rx`, `rxTestSrc`) interprets
the constructs actually occurring in the generated patterns: literals,
escapes, alternation, non-capturing and capturing groups, negative
lookahead, the dot, the start anchor and bounded repetition, with
case-insensitive comparison; `test` success is existence of a match at
some start position, which agrees with the backtracking engine for these
lookahead-and-alternation patterns.
-/

namespace OptcMatchers

/-- Association list with string keys, modelling a JS object. -/
abbrev AList (α : Type) := List (String × α)

/-- `obj[k]` read: first binding wins (JS keys are unique anyway). -/
def aget {α : Type} (m : AList α) (k : String) : Option α :=
  match m with
  | [] => none
  | (k₁, v) :: rest => if k₁ = k then some v else aget rest k

/-- `obj[k] = v` write: update in place if present, else append. -/
def aset {α : Type} (m : AList α) (k : String) (v : α) : AList α :=
  match m with
  | [] => [(k, v)]
  | (k₁, v₁) :: rest =>
    if k₁ = k then (k, v) :: rest else (k₁, v₁) :: aset rest k v

/-- Keys of the object, in enumeration order. -/
def akeys {α : Type} (m : AList α) : List String :=
  match m with
  | [] => []
  | (k, _) :: rest => k :: akeys rest

theorem aget_aset_self {α : Type} (m : AList α) (k : String) (v : α) :
    aget (aset m k v) k = some v := by
  induction m with
  | nil => simp [aget, aset]
  | cons p rest ih =>
    obtain ⟨k₁, v₁⟩ := p
    by_cases h : k₁ = k
    · simp [aget, aset, h]
    · simp [aget, aset, h, ih]

theorem aget_aset_ne {α : Type} (m : AList α) (k k₂ : String) (v : α)
    (h : k ≠ k₂) : aget (aset m k v) k₂ = aget m k₂ := by
  induction m with
  | nil => simp [aget, aset, h]
  | cons p rest ih =>
    obtain ⟨k₁, v₁⟩ := p
    by_cases h₁ : k₁ = k
    · subst h₁
      simp [aget, aset, h]
    · simp [aget, aset, h₁, ih]

theorem akeys_aset {α : Type} (m : AList α) (k : String) (v : α) :
    akeys (aset m k v) = if k ∈ akeys m then akeys m else akeys m ++ [k] := by
  induction m with
  | nil => simp [akeys, aset]
  | cons p rest ih =>
    obtain ⟨k₁, v₁⟩ := p
    by_cases h : k₁ = k
    · subst h
      simp [akeys, aset]
    · have hne : ¬ k = k₁ := fun hh => h hh.symm
      by_cases hmem : k ∈ akeys rest
      · simp only [aset, akeys, h, if_false, ih, hmem, if_true, List.mem_cons,
          hne, false_or]
      · simp only [aset, akeys, h, if_false, ih, hmem, if_false, List.mem_cons,
          hne, false_or, List.cons_append]

theorem nodup_akeys_aset {α : Type} (m : AList α) (k : String) (v : α)
    (h : (akeys m).Nodup) : (akeys (aset m k v)).Nodup := by
  rw [akeys_aset]
  by_cases hmem : k ∈ akeys m
  · simpa [hmem] using h
  · simp only [hmem, if_false]
    exact List.Nodup.append h (List.nodup_singleton k)
      (by simpa using fun hk => hmem hk)

theorem aget_isSome_of_mem_akeys {α : Type} (m : AList α) (k : String)
    (h : k ∈ akeys m) : (aget m k).isSome := by
  induction m with
  | nil => simp [akeys] at h
  | cons p rest ih =>
    obtain ⟨k₁, v₁⟩ := p
    by_cases hk : k₁ = k
    · simp [aget, hk]
    · have hne : ¬ k = k₁ := fun hh => hk hh.symm
      simp only [akeys, List.mem_cons, hne, false_or] at h
      simp [aget, hk, ih h]

theorem aget_eq_none_of_not_mem_akeys {α : Type} (m : AList α) (k : String)
    (h : k ∉ akeys m) : aget m k = none := by
  induction m with
  | nil => simp [aget]
  | cons p rest ih =>
    obtain ⟨k₁, v₁⟩ := p
    simp only [akeys, List.mem_cons, not_or] at h
    have hne : ¬ k₁ = k := fun hh => h.1 hh.symm
    simp [aget, hne, ih h.2]

theorem mem_akeys_of_aget_isSome {α : Type} (m : AList α) (k : String)
    (h : (aget m k).isSome) : k ∈ akeys m := by
  by_contra hmem
  rw [aget_eq_none_of_not_mem_akeys m k hmem] at h
  simp at h

/-- With nodup keys, the binding list is recovered from key enumeration. -/
theorem self_eq_map_aget {α : Type} (m : AList α) (h : (akeys m).Nodup) :
    (akeys m).filterMap (fun k => (aget m k).map (fun v => (k, v))) = m := by
  induction m with
  | nil => simp [akeys]
  | cons p rest ih =>
    obtain ⟨k₁, v₁⟩ := p
    simp only [akeys, List.nodup_cons] at h
    have hrest : ∀ k ∈ akeys rest,
        (aget ((k₁, v₁) :: rest) k).map (fun v => (k, v))
          = (aget rest k).map (fun v => (k, v)) := by
      intro k hk
      have hne : ¬ k₁ = k := fun hh => h.1 (by rw [hh]; exact hk)
      simp [aget, hne]
    calc (akeys ((k₁, v₁) :: rest)).filterMap
            (fun k => (aget ((k₁, v₁) :: rest) k).map (fun v => (k, v)))
        = (k₁, v₁) :: (akeys rest).filterMap
            (fun k => (aget ((k₁, v₁) :: rest) k).map (fun v => (k, v))) := by
          simp [akeys, aget]
      _ = (k₁, v₁) :: (akeys rest).filterMap
            (fun k => (aget rest k).map (fun v => (k, v))) := by
          congr 1
          exact List.filterMap_congr hrest
      _ = (k₁, v₁) :: rest := by rw [ih h.2]

/-! ### UTF-16 code-unit order (the comparison behind `Array.sort()`) -/

/-- UTF-16 encoding of one character (JS strings are UTF-16). -/
def utf16Units (c : Char) : List Nat :=
  let n := c.toNat
  if n < 0x10000 then [n]
  else [0xD800 + (n - 0x10000) / 0x400, 0xDC00 + (n - 0x10000) % 0x400]

/-- The UTF-16 code-unit sequence of a string. -/
def strUnits (s : String) : List Nat := s.data.flatMap utf16Units

/-- Lexicographic comparison of code-unit sequences, i.e. the JS `<`
comparison used by the default `Array.sort()` on strings. -/
def unitsLe : List Nat → List Nat → Bool
  | [], _ => true
  | _ :: _, [] => false
  | a :: as, b :: bs =>
    if a < b then true else if b < a then false else unitsLe as bs

/-- JS default string sort order. -/
def jsStrLe (a b : String) : Prop := unitsLe (strUnits a) (strUnits b) = true

instance : DecidablePred fun p : String × String => jsStrLe p.1 p.2 := by
  intro p; unfold jsStrLe; infer_instance

instance jsStrLeDecidable : ∀ a b : String, Decidable (jsStrLe a b) := by
  intro a b; unfold jsStrLe; infer_instance

theorem unitsLe_total (a b : List Nat) : unitsLe a b = true ∨ unitsLe b a = true := by
  induction a generalizing b with
  | nil => left; simp [unitsLe]
  | cons x as ih =>
    cases b with
    | nil => right; simp [unitsLe]
    | cons y bs =>
      rcases Nat.lt_trichotomy x y with h | h | h
      · left; simp [unitsLe, h]
      · subst h
        rcases ih bs with hl | hr
        · left; simp [unitsLe, hl]
        · right; simp [unitsLe, hr]
      · right; simp [unitsLe, h]

theorem unitsLe_trans {a b c : List Nat} (hab : unitsLe a b = true)
    (hbc : unitsLe b c = true) : unitsLe a c = true := by
  induction a generalizing b c with
  | nil => simp [unitsLe]
  | cons x as ih =>
    cases b with
    | nil => simp [unitsLe] at hab
    | cons y bs =>
      cases c with
      | nil => simp [unitsLe] at hbc
      | cons z cs =>
        simp only [unitsLe] at hab hbc ⊢
        rcases Nat.lt_trichotomy x y with hxy | hxy | hxy
        · rcases Nat.lt_trichotomy y z with hyz | hyz | hyz
          · simp [Nat.lt_trans hxy hyz]
          · subst hyz; simp [hxy]
          · have h₁ : ¬ y < z := Nat.lt_asymm hyz
            simp [h₁, hyz] at hbc
        · subst hxy
          have h₀ : ¬ x < x := Nat.lt_irrefl x
          simp [h₀] at hab
          by_cases hyz : x < z
          · simp [hyz]
          · by_cases hzy : z < x
            · simp [hyz, hzy] at hbc
            · simp [hyz, hzy] at hbc ⊢
              exact ih hab hbc
        · have h₁ : ¬ x < y := Nat.lt_asymm hxy
          simp [h₁, hxy] at hab

instance : IsTotal String jsStrLe :=
  ⟨fun a b => unitsLe_total (strUnits a) (strUnits b)⟩

instance : IsTrans String jsStrLe :=
  ⟨fun _ _ _ hab hbc => unitsLe_trans hab hbc⟩

/-! ### `String.prototype.replace` with a global literal pattern

`name.replace(/%target%/g, sub)`: scan left to right, replace each
non-overlapping occurrence.  Fuel-indexed (structurally recursive) so that
concrete instances reduce inside `decide`; any fuel at least the length of
the text realizes the JS semantics. -/

def replaceGo (pat sub : List Char) : Nat → List Char → List Char
  | _, [] => []
  | 0, cs => cs
  | f + 1, c :: cs =>
    if pat ≠ [] ∧ List.take pat.length (c :: cs) = pat then
      sub ++ replaceGo pat sub f (List.drop pat.length (c :: cs))
    else
      c :: replaceGo pat sub f cs

theorem replaceGo_fuel {pat sub : List Char} :
    ∀ (f g : Nat) (cs : List Char), cs.length ≤ f → cs.length ≤ g →
      replaceGo pat sub f cs = replaceGo pat sub g cs := by
  intro f
  induction f with
  | zero =>
    intro g cs hf _
    have : cs = [] := List.eq_nil_of_length_eq_zero (Nat.le_zero.mp hf)
    subst this
    cases g <;> simp [replaceGo]
  | succ f ih =>
    intro g cs hf hg
    cases cs with
    | nil => cases g <;> simp [replaceGo]
    | cons c cs =>
      cases g with
      | zero => simp at hg
      | succ g =>
        simp only [List.length_cons] at hf hg
        by_cases hm : pat ≠ [] ∧ List.take pat.length (c :: cs) = pat
        · have hp : 1 ≤ pat.length := by
            cases hpat : pat with
            | nil => exact absurd hpat hm.1
            | cons x xs => simp
          have hlen : (List.drop pat.length (c :: cs)).length ≤ f := by
            simp only [List.length_drop, List.length_cons]
            omega
          have hlen₂ : (List.drop pat.length (c :: cs)).length ≤ g := by
            simp only [List.length_drop, List.length_cons]
            omega
          simp only [replaceGo, if_pos hm]
          rw [ih g _ hlen hlen₂]
        · simp only [replaceGo, if_neg hm]
          have hlen : cs.length ≤ f := by omega
          have hlen₂ : cs.length ≤ g := by omega
          rw [ih g cs hlen hlen₂]

/-- In a text with no `'%'`, no occurrence of a pattern starting with `'%'`
begins, so the scan copies the text unchanged. -/
theorem replaceGo_no_occur {pt sub : List Char} :
    ∀ (f : Nat) (a : List Char), a.length ≤ f → '%' ∉ a →
      replaceGo ('%' :: pt) sub f a = a := by
  intro f
  induction f with
  | zero =>
    intro a hf _
    have : a = [] := List.eq_nil_of_length_eq_zero (Nat.le_zero.mp hf)
    subst this; simp [replaceGo]
  | succ f ih =>
    intro a hf ha
    cases a with
    | nil => simp [replaceGo]
    | cons c cs =>
      have hc : c ≠ '%' := by
        intro h; exact ha (h ▸ List.mem_cons_self c cs)
      have hm : ¬ ('%' :: pt ≠ [] ∧
          List.take ('%' :: pt).length (c :: cs) = '%' :: pt) := by
        intro ⟨_, htake⟩
        have : c = '%' := by
          have := congrArg List.head? htake
          simpa [List.take, List.length_cons] using this
        exact hc this
      simp only [replaceGo, if_neg hm]
      have hcs : '%' ∉ cs := fun h => ha (List.mem_cons_of_mem c h)
      have hlen : cs.length ≤ f := by simp at hf; omega
      rw [ih cs hlen hcs]

/-- An occurrence of the pattern right after a `'%'`-free block is found
and replaced, and the scan continues after it. -/
theorem replaceGo_block {pt sub : List Char} :
    ∀ (a : List Char) (b : List Char) (f : Nat),
      (a ++ ('%' :: pt) ++ b).length ≤ f → '%' ∉ a →
      replaceGo ('%' :: pt) sub f (a ++ ('%' :: pt) ++ b)
        = a ++ sub ++ replaceGo ('%' :: pt) sub b.length b := by
  intro a
  induction a with
  | nil =>
    intro b f hf _
    simp only [List.nil_append] at hf ⊢
    cases f with
    | zero => simp at hf
    | succ f =>
      have hm : ('%' :: pt ≠ [] ∧
          List.take ('%' :: pt).length (('%' :: pt) ++ b) = '%' :: pt) := by
        constructor
        · simp
        · exact List.take_left ('%' :: pt) b
      have hstep : ('%' :: pt) ++ b = '%' :: (pt ++ b) := by simp
      rw [hstep] at hf ⊢
      rw [show ('%' : Char) :: (pt ++ b) = ('%' :: pt) ++ b by simp] at hf
      simp only [replaceGo]
      rw [show (('%' : Char) :: (pt ++ b)) = ('%' :: pt) ++ b by simp]
      rw [if_pos (by simp only [ne_eq, reduceCtorEq, not_false_eq_true,
        true_and] at hm ⊢; exact hm)]
      rw [List.drop_left ('%' :: pt) b]
      have hlenb : b.length ≤ f := by
        simp only [List.length_append, List.length_cons] at hf
        omega
      rw [replaceGo_fuel f b.length b hlenb (Nat.le_refl _)]
  | cons c a ih =>
    intro b f hf ha
    have hc : c ≠ '%' := by
      intro h; exact ha (h ▸ List.mem_cons_self c a)
    cases f with
    | zero => simp at hf
    | succ f =>
      have hform : (c :: a) ++ ('%' :: pt) ++ b
          = c :: (a ++ ('%' :: pt) ++ b) := by simp
      rw [hform] at hf ⊢
      have hm : ¬ ('%' :: pt ≠ [] ∧
          List.take ('%' :: pt).length (c :: (a ++ ('%' :: pt) ++ b))
            = '%' :: pt) := by
        intro ⟨_, htake⟩
        have : c = '%' := by
          have := congrArg List.head? htake
          simpa [List.take, List.length_cons] using this
        exact hc this
      simp only [replaceGo, if_neg hm]
      have haa : '%' ∉ a := fun h => ha (List.mem_cons_of_mem c h)
      have hlen : (a ++ ('%' :: pt) ++ b).length ≤ f := by
        simp only [List.length_cons] at hf; omega
      rw [ih b f hlen haa]
      simp

/-! ### Regex engine for the generated pattern sources -/

/-- Syntax of the regex constructs occurring in the generated patterns. -/
inductive Rx : Type
  | eps : Rx
  | ch : Char → Rx
  | dot : Rx
  | bol : Rx
  | seq : Rx → Rx → Rx
  | alt : Rx → Rx → Rx
  | neg : Rx → Rx
deriving Repr, DecidableEq

/-- Bounded repetition `r{n}` desugared to a sequence. -/
def repN (r : Rx) : Nat → Rx
  | 0 => .eps
  | n + 1 => .seq r (repN r n)

/-- End positions reachable when matching `r` from position `p`.  Character
comparison is case-insensitive (every generated matcher regex carries the
"i" flag); `dot` matches any character (the texts contain no line
terminators); `bol` is the unanchored-search `^`, true only at position 0;
`neg r` is the negative lookahead `(?!r)`, succeeding exactly when `r`
cannot match here, which coincides with the backtracking engine. -/
def mAt (r : Rx) (cs : List Char) (p : Nat) : List Nat :=
  match r with
  | .eps => [p]
  | .ch c =>
    match cs[p]? with
    | some d => if c.toLower = d.toLower then [p + 1] else []
    | none => []
  | .dot =>
    match cs[p]? with
    | some _ => [p + 1]
    | none => []
  | .bol => if p = 0 then [p] else []
  | .seq a b => (mAt a cs p).flatMap (fun q => mAt b cs q)
  | .alt a b => mAt a cs p ++ mAt b cs p
  | .neg a => if (mAt a cs p).isEmpty then [p] else []

/-- Read a decimal number (for the `{n}` quantifier). -/
def readNat : List Char → Nat → (Nat × List Char)
  | [], acc => (acc, [])
  | c :: rest, acc =>
    if c.isDigit then readNat rest (acc * 10 + (c.toNat - 48))
    else (acc, c :: rest)

mutual

/-- Parse an alternation (`a|b|...`). -/
def parseAlt : Nat → List Char → Option (Rx × List Char)
  | 0, _ => none
  | f + 1, cs =>
    match parseSeq f cs with
    | none => none
    | some (r, cs₁) => parseAltRest f r cs₁

/-- Parse the remaining `|`-separated branches. -/
def parseAltRest : Nat → Rx → List Char → Option (Rx × List Char)
  | 0, _, _ => none
  | f + 1, acc, cs =>
    match cs with
    | '|' :: rest =>
      match parseSeq f rest with
      | none => none
      | some (r, cs₁) => parseAltRest f (.alt acc r) cs₁
    | _ => some (acc, cs)

/-- Parse a concatenation, stopping at `|`, `)` or the end. -/
def parseSeq : Nat → List Char → Option (Rx × List Char)
  | 0, _ => none
  | f + 1, cs =>
    match cs with
    | [] => some (.eps, [])
    | ')' :: _ => some (.eps, cs)
    | '|' :: _ => some (.eps, cs)
    | _ =>
      match parseItem f cs with
      | none => none
      | some (r, cs₁) =>
        match parseSeq f cs₁ with
        | none => none
        | some (r₂, cs₂) => some (.seq r r₂, cs₂)

/-- Parse one atom with an optional `{n}` quantifier. -/
def parseItem : Nat → List Char → Option (Rx × List Char)
  | 0, _ => none
  | f + 1, cs =>
    match parseAtom f cs with
    | none => none
    | some (a, cs₁) =>
      match cs₁ with
      | '{' :: rest =>
        match readNat rest 0 with
        | (n, '}' :: rest₂) => some (repN a n, rest₂)
        | _ => none
      | _ => some (a, cs₁)

/-- Parse one atom: escape, group, lookahead, dot, anchor or literal. -/
def parseAtom : Nat → List Char → Option (Rx × List Char)
  | 0, _ => none
  | f + 1, cs =>
    match cs with
    | '\\' :: c :: rest => some (.ch c, rest)
    | '(' :: '?' :: ':' :: rest =>
      match parseAlt f rest with
      | some (r, ')' :: rest₂) => some (r, rest₂)
      | _ => none
    | '(' :: '?' :: '!' :: rest =>
      match parseAlt f rest with
      | some (r, ')' :: rest₂) => some (.neg r, rest₂)
      | _ => none
    | '(' :: '?' :: _ => none
    | '(' :: rest =>
      match parseAlt f rest with
      | some (r, ')' :: rest₂) => some (r, rest₂)
      | _ => none
    | '.' :: rest => some (.dot, rest)
    | '^' :: rest => some (.bol, rest)
    | c :: rest =>
      if c ∈ ['|', ')', '(', '{', '}', '*', '+', '?', '[', ']', '$', '\\']
      then none
      else some (.ch c, rest)
    | [] => none

end

/-- Parse a whole pattern source. -/
def rxParse (s : String) : Option Rx :=
  match parseAlt (2 * s.length + 16) s.data with
  | some (r, []) => some r
  | _ => none

/-- `regex.test(text)`: a match exists at some start position. -/
def rxMatches (r : Rx) (text : String) : Bool :=
  let cs := text.data
  (List.range (cs.length + 1)).any (fun p => !(mAt r cs p).isEmpty)

/-- `new RegExp(src, "i").test(text)`, `false` on sources outside the
modelled fragment. -/
def rxTestSrc (src text : String) : Bool :=
  match rxParse src with
  | some r => rxMatches r text
  | none => false

/-! ### Data model: submatchers and matcher (rule) specifications -/

/-- A submatcher object as built in `matchers.js`.  The `regex` property is
carried as its source string (`regexSrc`); every submatcher regex in the
file is constructed with the "i" flag.  Fields that a given object does not
set keep their stated defaults. -/
structure Submatcher where
  type : String
  description : String
  regexSrc : String := ""
  radioGroup : String := ""
  cssClasses : List String := []
  groups : List Nat := []
deriving DecidableEq, Repr

/-- One entry of the literal `matchers` rule-spec table: a name (possibly
containing the `%target%` placeholder), the declared targets, the matcher
regex source and the submatcher list. -/
structure MatcherSpec where
  name : String
  targets : List String
  regexSrc : String
  submatchers : List Submatcher := []
deriving DecidableEq, Repr

/-! ### Taxonomy tables (from the top of `matchers.js`) -/

def orbKoMap : AList String :=
  [("STR", "힘"), ("DEX", "기"), ("QCK", "속"), ("PSY", "심"), ("INT", "지"),
   ("G", "G"), ("RCV", "고기"), ("TND", "연"), ("BOMB", "폭탄"),
   ("EMPTY", "공백"), ("SUPERBOMB", "슈퍼 폭탄"), ("RAINBOW", "무지개"),
   ("SEMLA", "셈라"), ("WANO", "和")]

def typeKoMap : AList String :=
  [("STR", "힘"), ("DEX", "기"), ("QCK", "속"), ("PSY", "심"), ("INT", "지")]

def classKoMap : AList String :=
  [("Fighter", "격투"), ("Shooter", "사격"), ("Slasher", "참격"),
   ("Striker", "타격"), ("Free Spirit", "자유"), ("Cerebral", "박식"),
   ("Powerhouse", "강인"), ("Driven", "야심")]

def types : List String := ["STR", "DEX", "QCK", "PSY", "INT"]

def classes : List String :=
  ["Fighter", "Shooter", "Slasher", "Striker", "Free Spirit", "Cerebral",
   "Powerhouse", "Driven"]

/-- The orb id list passed to `createOrbsSubmatchers` at its fullest call
site (line 1724); other call sites pass sublists of it. -/
def orbsFull : List String :=
  ["STR", "DEX", "QCK", "PSY", "INT", "G", "RCV", "TND", "BOMB", "EMPTY",
   "SUPERBOMB", "RAINBOW", "SEMLA", "WANO"]

/-! ### Submatcher generators -/

/-- `createTypesSubmatchers(groups, includeUniversal, universalRegex)`.
`typeKoMap[type]` is always defined (the keys are exactly `types`); the
`.getD type` arm is the JS `undefined` case, which never fires. -/
def createTypesSubmatchers (groups : List Nat) (includeUniversal : Bool := true)
    (universalRegex : String := "all|type") : List Submatcher :=
  types.mapIdx (fun i type =>
    { type := "option"
      description := (aget typeKoMap type).getD type
      regexSrc := "\\[" ++ type ++ "\\]"
        ++ (if includeUniversal then "|" ++ universalRegex else "")
      cssClasses := [if i < 3 then "min-width-4" else "min-width-6"]
      groups := groups })

/-- `createClassesSubmatchers(groups, includeUniversal, universalRegex)`. -/
def createClassesSubmatchers (groups : List Nat)
    (includeUniversal : Bool := true) (universalRegex : String := "모두") :
    List Submatcher :=
  classes.map (fun class_ =>
    { type := "option"
      description := (aget classKoMap class_).getD class_
      regexSrc := class_
        ++ (if includeUniversal then "|" ++ universalRegex else "")
      cssClasses := ["min-width-6"]
      groups := groups })

/-- `createOrbsSubmatchers(orbs, groups, includeUniversal, universalRegex)`.
`minWidth` starts as the number 6 and may be reassigned the strings "2" or
"3"; the concatenation `"min-width-" + minWidth` coerces, giving the three
class strings below.  `orbKoMap[orb] || orb` falls back to the id when the
map has no entry (all mapped labels are nonempty, so `||` only sees the
`undefined` case). -/
def createOrbsSubmatchers (orbs : List String) (groups : List Nat)
    (includeUniversal : Bool := true) (universalRegex : String := "모두") :
    List Submatcher :=
  orbs.map (fun orb =>
    { type := "option"
      description := (aget orbKoMap orb).getD orb
      regexSrc := "\\[" ++ orb ++ "\\]"
        ++ (if includeUniversal then "|" ++ universalRegex else "")
      cssClasses := [if orb.length ≤ 3 then "min-width-2"
        else if orb.length ≤ 5 then "min-width-3" else "min-width-6"]
      groups := groups })

def positionRows : List String := ["Top", "Middle", "Bottom"]

def positionColumns : List String := ["Left", "Right"]

def rowKoMap : AList String :=
  [("Top", "상단"), ("Middle", "중단"), ("Bottom", "하단")]

def colKoMap : AList String := [("Left", "좌측"), ("Right", "우측")]

/-- `createPositionsSubmatchers(groups, includeUniversal, universalRegex,
excludedSubmatchers, useRowsAndColumns)`: either the row/column breakdown,
or the combined six-board-cell mode, then the adjacent / selected / self
options. -/
def createPositionsSubmatchers (groups : List Nat)
    (includeUniversal : Bool := true) (universalRegex : String := "모두")
    (excludedSubmatchers : List String := [])
    (useRowsAndColumns : Bool := true) : List Submatcher :=
  let uni := fun (core : String) =>
    core ++ (if includeUniversal then "|" ++ universalRegex else "")
  let main : List Submatcher :=
    if useRowsAndColumns then
      (positionRows.filterMap (fun row =>
        if excludedSubmatchers.contains row then none
        else some
          { type := "option"
            description := (aget rowKoMap row).getD row
            regexSrc := uni row
            cssClasses := ["min-width-4"]
            groups := groups }))
      ++ (positionColumns.filterMap (fun col =>
        if excludedSubmatchers.contains col then none
        else some
          { type := "option"
            description := (aget colKoMap col).getD col
            regexSrc := uni col
            cssClasses := ["min-width-6"]
            groups := groups }))
    else
      [{ type := "option", description := "친구 선장"
         regexSrc := uni "left column|top(?! right)|Friend Captain"
         cssClasses := ["min-width-6"], groups := groups },
       { type := "option", description := "선장"
         regexSrc := uni "right column|top(?! left)|(?:^|(?!end ).{4})Captain"
         cssClasses := ["min-width-6"], groups := groups },
       { type := "option", description := "중단 좌측"
         regexSrc := uni "left column|middle(?! right)"
         cssClasses := ["min-width-6"], groups := groups },
       { type := "option", description := "중단 우측"
         regexSrc := uni "right column|middle(?! left)"
         cssClasses := ["min-width-6"], groups := groups },
       { type := "option", description := "하단 좌측"
         regexSrc := uni "left column|bottom(?! right)"
         cssClasses := ["min-width-6"], groups := groups },
       { type := "option", description := "하단 우측"
         regexSrc := uni "right column|bottom(?! left)"
         cssClasses := ["min-width-6"], groups := groups }]
  main
  ++ (if excludedSubmatchers.contains "Adjacent" then []
      else [{ type := "option", description := "인접"
              regexSrc := uni "adjacent"
              cssClasses := ["min-width-4"], groups := groups }])
  ++ (if excludedSubmatchers.contains "Selected" then []
      else [{ type := "option", description := "선택"
              regexSrc := uni "selected"
              cssClasses := ["min-width-4"], groups := groups }])
  ++ (if excludedSubmatchers.contains "Self" then []
      else [{ type := "option", description := "자신"
              regexSrc := uni "this|own|supported"
              cssClasses := ["min-width-4"], groups := groups }])

/-- `createUniversalSubmatcher(groups, universalRegex)`: the
`universalRegex || "all|type"` falls back on the empty (falsy) string. -/
def createUniversalSubmatcher (groups : List Nat)
    (universalRegex : String := "all|type") : List Submatcher :=
  [{ type := "option"
     description := "모든 속성"
     regexSrc := if universalRegex = "" then "all|type" else universalRegex
     groups := groups }]

/-! ### Number-submatcher extraction (spec-modelled)

The evaluation of submatchers happens in `CharUtils.checkMatcher`
(`characters/js/utils.js`), which is not among the provided sources; only
its contract is documented at the top of `matchers.js` (lines 24-34).  The
definitions below are therefore modelled from the spec. -/

/-- A numeric value extracted for comparison: finite, or positive
infinity. -/
inductive ExtNum : Type
  | fin : ℚ → ExtNum
  | inf : ExtNum
deriving DecidableEq, Repr

/-- Value of a digit run, most significant first. -/
def digitsVal (cs : List Char) : ℚ :=
  cs.foldl (fun acc c => acc * 10 + ((c.toNat - 48 : Nat) : ℚ)) 0

/-- Value of a fractional digit run. -/
def fracVal (cs : List Char) : ℚ :=
  cs.foldr (fun c acc => (acc + ((c.toNat - 48 : Nat) : ℚ)) / 10) 0

/-- Modelled from the spec: decimal parsing of a captured numeric token
(optionally with a fractional part), as used on number-submatcher
captures. -/
def parseDec (s : String) : ℚ :=
  let intPart := s.data.takeWhile Char.isDigit
  let rest := s.data.dropWhile Char.isDigit
  let frac :=
    match rest with
    | '.' :: fs => fs.takeWhile Char.isDigit
    | _ => []
  digitsVal intPart + fracVal frac

/-- Modelled from the spec: extraction of a number-submatcher capture.
"completely" and "99+" are interpreted as Infinity; every "?" in the
captured token is replaced by "0" before parsing, so that a bare "?"
compares as 0 (matchers.js lines 27-34; spec sections 4.4 and 8). -/
def extractNumber (token : String) : ExtNum :=
  if token = "completely" ∨ token = "99+" then ExtNum.inf
  else ExtNum.fin (parseDec ⟨replaceGo ['?'] ['0'] token.data.length token.data⟩)

/-- The numeric comparators offered by number submatchers. -/
inductive NumCmp : Type
  | lt | le | eq | ge | gt
deriving DecidableEq, Repr

/-- Modelled from the spec: whether the extracted value satisfies the
user's comparison against a finite threshold, with Infinity above every
finite number. -/
def satisfiesCmp (v : ExtNum) (c : NumCmp) (n : ℚ) : Bool :=
  match v, c with
  | .inf, .lt => false
  | .inf, .le => false
  | .inf, .eq => false
  | .inf, .ge => true
  | .inf, .gt => true
  | .fin q, .lt => decide (q < n)
  | .fin q, .le => decide (q ≤ n)
  | .fin q, .eq => decide (q = n)
  | .fin q, .ge => decide (q ≥ n)
  | .fin q, .gt => decide (q > n)

/-! ### Registry construction (`matchers.js` lines 7988-8065)

The module-level flags, the fixed target list, and the loop that regroups
the `matchers` table into `window.matchers[target][group][name]`. -/

def includeOldFilters : Bool := false

def alphabeticalOrder : Bool := true

/-- The declared order of targets; each gets an empty mapping up front. -/
def allTargets : List String :=
  ["captain", "special", "superSpecialCriteria", "superSpecial", "swap",
   "sailor", "limit", "potential", "support"]

/-- `/^old/i.test(name)`. -/
def isOldName (name : String) : Bool :=
  (name.data.take 3).map Char.toLower = ['o', 'l', 'd']

/-- The target-specific rule name: `%target%` globally replaced by
"super specials" for the `superSpecial` target and by `target + "s"`
otherwise. -/
def newNameOf (name target : String) : String :=
  if target = "superSpecial" then
    ⟨replaceGo "%target%".data "super specials".data name.data.length name.data⟩
  else
    ⟨replaceGo "%target%".data (target ++ "s").data name.data.length name.data⟩

/-- A compiled registry entry: the shallow copy
`{...matcher, target, group, name: newName}` (the submatcher array is
copied element-wise, hence equal as a list). -/
structure Compiled where
  name : String
  targets : List String
  regexSrc : String
  submatchers : List Submatcher
  target : String
  group : String
deriving DecidableEq, Repr

def compileCopy (m : MatcherSpec) (target group newName : String) : Compiled :=
  { name := newName, targets := m.targets, regexSrc := m.regexSrc,
    submatchers := m.submatchers, target := target, group := group }

/-- The collision diagnostic written by `console.error`. -/
def dupMsg (newName : String) : String :=
  "Duplicate matcher \"" ++ newName ++ "\""

abbrev GroupMap := AList Compiled
abbrev TargetMap := AList GroupMap
abbrev Registry := AList TargetMap

/-- Registry under construction plus the emitted diagnostics. -/
structure BuildSt where
  reg : Registry
  log : List String
deriving DecidableEq, Repr

/-- One registration: group name, rule spec, one declared target. -/
structure RegEvent where
  group : String
  spec : MatcherSpec
  target : String
deriving DecidableEq, Repr

def evKey (e : RegEvent) : String × String × String :=
  (e.target, e.group, newNameOf e.spec.name e.target)

def evVal (e : RegEvent) : Compiled :=
  compileCopy e.spec e.target e.group (newNameOf e.spec.name e.target)

/-- The body of the innermost registration loop, after the legacy check:
create the target and group objects if missing, log a collision if the
resolved name is already bound, then overwrite. -/
def applyEv (st : BuildSt) (e : RegEvent) : BuildSt :=
  let reg := st.reg
  let reg := if (aget reg e.target).isSome then reg else aset reg e.target []
  let tm := (aget reg e.target).getD []
  let tm := if (aget tm e.group).isSome then tm else aset tm e.group []
  let newName := newNameOf e.spec.name e.target
  let gm := (aget tm e.group).getD []
  let log :=
    if (aget gm newName).isSome then st.log ++ [dupMsg newName] else st.log
  let gm := aset gm newName (compileCopy e.spec e.target e.group newName)
  { reg := aset reg e.target (aset tm e.group gm), log := log }

/-- One iteration over a declared target, with the
`if (!includeOldFilters && /^old/i.test(matcher.name)) continue;` guard. -/
def regTargetStep (includeOld : Bool) (group : String) (m : MatcherSpec)
    (st : BuildSt) (target : String) : BuildSt :=
  if !includeOld && isOldName m.name then st
  else applyEv st { group := group, spec := m, target := target }

/-- The triple registration loop over the `matchers` table. -/
def buildState (includeOld : Bool) (table : AList (List MatcherSpec))
    (init : BuildSt) : BuildSt :=
  table.foldl
    (fun st p =>
      p.2.foldl
        (fun st m => m.targets.foldl (regTargetStep includeOld p.1 m) st) st)
    init

/-- `window.matchers = {}`, then an empty object per declared target. -/
def initSt : BuildSt :=
  { reg := allTargets.foldl (fun r t => aset r t []) [], log := [] }

/-- `sortObj`: rebuild an object with its keys sorted (JS default string
sort).  `result[key] = obj[key]` is total on the enumerated keys, which is
why the `filterMap` arm never drops anything. -/
def sortObj {α : Type} (m : AList α) : AList α :=
  ((akeys m).insertionSort jsStrLe).filterMap
    (fun k => (aget m k).map (fun v => (k, v)))

/-- The alphabetical-order pass: sort each group map of each target. -/
def sortAllGroups (reg : Registry) : Registry :=
  reg.map (fun p => (p.1, p.2.map (fun q => (q.1, sortObj q.2))))

/-- The whole module initialization: register everything, then sort when
`alphabeticalOrder` is set. -/
def buildMatchers (table : AList (List MatcherSpec)) : BuildSt :=
  let st := buildState includeOldFilters table initSt
  if alphabeticalOrder then { st with reg := sortAllGroups st.reg } else st

/-- `window.matchers[target][group]`. -/
def lookupGroup (reg : Registry) (target group : String) : Option GroupMap :=
  (aget reg target).bind (fun tm => aget tm group)

/-- `window.matchers[target][group][name]` on a built registry. -/
def lookupRule (reg : Registry) (target group name : String) : Option Compiled :=
  (lookupGroup reg target group).bind (fun gm => aget gm name)

/-- The flattened registration sequence: groups in table order, specs in
list order, targets in declaration order, with legacy specs filtered when
`includeOld` is unset. -/
def eventsOf (includeOld : Bool) (table : AList (List MatcherSpec)) :
    List RegEvent :=
  table.flatMap (fun p =>
    p.2.flatMap (fun m =>
      m.targets.filterMap (fun t =>
        if !includeOld && isOldName m.name then none
        else some { group := p.1, spec := m, target := t })))

/-- A rule spec occurring somewhere in the table. -/
def specInTable (m : MatcherSpec) (table : AList (List MatcherSpec)) : Prop :=
  ∃ p ∈ table, m ∈ p.2

/-! ### The registration loop as a fold over the event sequence -/

theorem targets_foldl (io : Bool) (g : String) (m : MatcherSpec) :
    ∀ (ts : List String) (st : BuildSt),
      ts.foldl (regTargetStep io g m) st
        = (ts.filterMap (fun t =>
            if !io && isOldName m.name then none
            else some { group := g, spec := m, target := t })).foldl applyEv st := by
  by_cases h : (!io && isOldName m.name) = true
  · intro ts
    induction ts with
    | nil => intro st; simp
    | cons t ts ih =>
      intro st
      rw [List.foldl_cons,
        show regTargetStep io g m st t = st by
          simp only [regTargetStep, if_pos h],
        List.filterMap_cons_none (by simp [h])]
      exact ih st
  · intro ts
    induction ts with
    | nil => intro st; simp
    | cons t ts ih =>
      intro st
      rw [List.foldl_cons,
        show regTargetStep io g m st t
            = applyEv st { group := g, spec := m, target := t } by
          simp only [regTargetStep, if_neg h],
        show List.filterMap (fun t : String =>
            if (!io && isOldName m.name) = true then none
            else some { group := g, spec := m, target := t : RegEvent })
            (t :: ts)
          = { group := g, spec := m, target := t }
            :: List.filterMap (fun t : String =>
              if (!io && isOldName m.name) = true then none
              else some { group := g, spec := m, target := t : RegEvent }) ts
          from by simp [h]]
      rw [List.foldl_cons]
      exact ih _

theorem specs_foldl (io : Bool) (g : String) :
    ∀ (ms : List MatcherSpec) (st : BuildSt),
      ms.foldl (fun st m => m.targets.foldl (regTargetStep io g m) st) st
        = (ms.flatMap (fun m =>
            m.targets.filterMap (fun t =>
              if !io && isOldName m.name then none
              else some { group := g, spec := m, target := t }))).foldl
            applyEv st := by
  intro ms
  induction ms with
  | nil => intro st; simp
  | cons m ms ih =>
    intro st
    simp only [List.foldl_cons, List.flatMap_cons, List.foldl_append]
    rw [targets_foldl, ih]

theorem buildState_eq_foldl (io : Bool) (table : AList (List MatcherSpec))
    (init : BuildSt) :
    buildState io table init = (eventsOf io table).foldl applyEv init := by
  induction table generalizing init with
  | nil => simp [buildState, eventsOf]
  | cons p rest ih =>
    simp only [buildState, eventsOf, List.foldl_cons, List.flatMap_cons,
      List.foldl_append] at *
    rw [specs_foldl, ih]

theorem mem_eventsOf {io : Bool} {table : AList (List MatcherSpec)}
    {e : RegEvent} (h : e ∈ eventsOf io table) :
    specInTable e.spec table ∧ (!io && isOldName e.spec.name) = false
      ∧ e.target ∈ e.spec.targets := by
  simp only [eventsOf, List.mem_flatMap, List.mem_filterMap] at h
  obtain ⟨p, hp, m, hm, t, ht, he⟩ := h
  by_cases hold : (!io && isOldName m.name) = true
  · rw [if_pos hold] at he
    exact absurd he (by simp)
  · rw [if_neg hold] at he
    cases he
    refine ⟨⟨p, hp, hm⟩, ?_, ht⟩
    · simpa using hold

/-! ### Effect of one registration on lookups -/

theorem aget_mem {α : Type} {m : AList α} {k : String} {v : α}
    (h : aget m k = some v) : (k, v) ∈ m := by
  induction m with
  | nil => simp [aget] at h
  | cons p rest ih =>
    obtain ⟨k₁, v₁⟩ := p
    by_cases hk : k₁ = k
    · subst hk
      simp only [aget, if_true, eq_self_iff_true, Option.some.injEq] at h
      rw [← h]
      exact List.mem_cons_self _ _
    · simp only [aget, if_neg hk] at h
      exact List.mem_cons_of_mem _ (ih h)

theorem mem_aset {α : Type} {m : AList α} {k : String} {v : α}
    {p : String × α} (h : p ∈ aset m k v) : p = (k, v) ∨ p ∈ m := by
  induction m with
  | nil => simp [aset] at h; left; exact h
  | cons q rest ih =>
    obtain ⟨k₁, v₁⟩ := q
    by_cases hk : k₁ = k
    · simp only [aset, if_pos hk, List.mem_cons] at h
      rcases h with h | h
      · left; exact h
      · right; exact List.mem_cons_of_mem _ h
    · simp only [aset, if_neg hk, List.mem_cons] at h
      rcases h with h | h
      · right; exact h ▸ List.mem_cons_self _ _
      · rcases ih h with h | h
        · left; exact h
        · right; exact List.mem_cons_of_mem _ h

theorem lookupRule_applyEv_self (st : BuildSt) (e : RegEvent) :
    lookupRule (applyEv st e).reg e.target e.group
      (newNameOf e.spec.name e.target) = some (evVal e) := by
  simp only [applyEv, lookupRule, lookupGroup, aget_aset_self,
    Option.some_bind]
  rfl

theorem lookupRule_applyEv_ne (st : BuildSt) (e : RegEvent)
    (t g n : String) (h : evKey e ≠ (t, g, n)) :
    lookupRule (applyEv st e).reg t g n = lookupRule st.reg t g n := by
  by_cases ht : e.target = t
  · subst ht
    by_cases hg : e.group = g
    · subst hg
      have hn : newNameOf e.spec.name e.target ≠ n := by
        intro hn
        exact h (by simp [evKey, hn])
      by_cases h₁ : (aget st.reg e.target).isSome
      · obtain ⟨tm, htm⟩ := Option.isSome_iff_exists.mp h₁
        by_cases h₂ : (aget tm e.group).isSome
        · obtain ⟨gm, hgm⟩ := Option.isSome_iff_exists.mp h₂
          simp [applyEv, lookupRule, lookupGroup, htm, hgm, aget_aset_self,
            aget_aset_ne _ _ _ _ hn]
        · have h₂n : aget tm e.group = none :=
            Option.not_isSome_iff_eq_none.mp h₂
          simp [applyEv, lookupRule, lookupGroup, htm, h₂n, aget_aset_self,
            aget_aset_ne _ _ _ _ hn, aget, hn]
      · have h₁n : aget st.reg e.target = none :=
          Option.not_isSome_iff_eq_none.mp h₁
        simp [applyEv, lookupRule, lookupGroup, h₁n, aget_aset_self,
          aget_aset_ne _ _ _ _ hn, aget, hn]
    · have hg₂ : e.group ≠ g := hg
      by_cases h₁ : (aget st.reg e.target).isSome
      · obtain ⟨tm, htm⟩ := Option.isSome_iff_exists.mp h₁
        by_cases h₂ : (aget tm e.group).isSome
        · simp [applyEv, lookupRule, lookupGroup, htm, h₂, aget_aset_self,
            aget_aset_ne _ _ _ _ hg₂, hg₂]
        · have h₂n : aget tm e.group = none :=
            Option.not_isSome_iff_eq_none.mp h₂
          simp [applyEv, lookupRule, lookupGroup, htm, h₂n, aget_aset_self,
            aget_aset_ne _ _ _ _ hg₂, hg₂, aget]
      · have h₁n : aget st.reg e.target = none :=
          Option.not_isSome_iff_eq_none.mp h₁
        simp [applyEv, lookupRule, lookupGroup, h₁n, aget_aset_self,
          aget_aset_ne _ _ _ _ hg₂, hg₂, aget]
  · have ht₂ : e.target ≠ t := ht
    by_cases h₁ : (aget st.reg e.target).isSome
    · simp [applyEv, lookupRule, lookupGroup, h₁, aget_aset_ne _ _ _ _ ht₂, ht₂]
    · simp [applyEv, lookupRule, lookupGroup, h₁, aget_aset_ne _ _ _ _ ht₂, ht₂]

theorem lookupRule_applyEv (st : BuildSt) (e : RegEvent) (t g n : String) :
    lookupRule (applyEv st e).reg t g n
      = if evKey e = (t, g, n) then some (evVal e)
        else lookupRule st.reg t g n := by
  by_cases h : evKey e = (t, g, n)
  · rw [if_pos h]
    have h₁ : e.target = t := congrArg (fun x => x.1) h
    have h₂ : e.group = g := congrArg (fun x => x.2.1) h
    have h₃ : newNameOf e.spec.name e.target = n := congrArg (fun x => x.2.2) h
    rw [← h₁, ← h₂, ← h₃]
    exact lookupRule_applyEv_self st e
  · rw [if_neg h]
    exact lookupRule_applyEv_ne st e t g n h

/-! ### Last-writer-wins over the event fold -/

theorem lookupRule_foldl (evs : List RegEvent) (st : BuildSt)
    (t g n : String) :
    lookupRule ((evs.foldl applyEv st).reg) t g n
      = match (evs.filter (fun e => decide (evKey e = (t, g, n)))).getLast? with
        | some e => some (evVal e)
        | none => lookupRule st.reg t g n := by
  induction evs generalizing st with
  | nil => simp
  | cons e evs ih =>
    rw [List.foldl_cons, ih]
    by_cases hk : evKey e = (t, g, n)
    · rw [show List.filter (fun e => decide (evKey e = (t, g, n))) (e :: evs)
          = e :: List.filter (fun e => decide (evKey e = (t, g, n))) evs from by
        simp [List.filter, hk]]
      cases hfl : List.filter (fun e => decide (evKey e = (t, g, n))) evs with
      | nil => simp [lookupRule_applyEv, hk]
      | cons e₂ l =>
        rw [List.getLast?_cons_cons]
        cases hgl : (e₂ :: l).getLast? with
        | none => simp at hgl
        | some x => rfl
    · rw [show List.filter (fun e => decide (evKey e = (t, g, n))) (e :: evs)
          = List.filter (fun e => decide (evKey e = (t, g, n))) evs from by
        simp [List.filter, hk]]
      cases hfl : List.filter (fun e => decide (evKey e = (t, g, n))) evs with
      | nil => simp [lookupRule_applyEv, hk]
      | cons e₂ l => rfl

/-! ### Diagnostics: monotone log, collision emission -/

theorem applyEv_log_eq (st : BuildSt) (e : RegEvent) :
    ∃ tail, (applyEv st e).log = st.log ++ tail := by
  simp only [applyEv]
  repeat' split
  all_goals
    first
    | exact ⟨[dupMsg (newNameOf e.spec.name e.target)], rfl⟩
    | exact ⟨[], by simp⟩

theorem log_mem_applyEv (st : BuildSt) (e : RegEvent) {x : String}
    (h : x ∈ st.log) : x ∈ (applyEv st e).log := by
  obtain ⟨tail, ht⟩ := applyEv_log_eq st e
  rw [ht]
  exact List.mem_append_left _ h

theorem log_mem_foldl (evs : List RegEvent) (st : BuildSt) {x : String}
    (h : x ∈ st.log) : x ∈ ((evs.foldl applyEv st).log) := by
  induction evs generalizing st with
  | nil => exact h
  | cons e evs ih => exact ih _ (log_mem_applyEv st e h)

theorem dup_emitted_applyEv (st : BuildSt) (e : RegEvent)
    (h : (lookupRule st.reg e.target e.group
      (newNameOf e.spec.name e.target)).isSome) :
    dupMsg (newNameOf e.spec.name e.target) ∈ (applyEv st e).log := by
  unfold lookupRule lookupGroup at h
  cases htm : aget st.reg e.target with
  | none => simp [htm] at h
  | some tm =>
    simp only [htm, Option.some_bind] at h
    cases hgm : aget tm e.group with
    | none => simp [hgm] at h
    | some gm =>
      simp only [hgm, Option.some_bind] at h
      simp [applyEv, htm, hgm, h]

/-! ### Well-formedness: nodup keys at every level -/

def regWF (r : Registry) : Prop :=
  (akeys r).Nodup ∧ ∀ p ∈ r, (akeys p.2).Nodup ∧ ∀ q ∈ p.2, (akeys q.2).Nodup

theorem regWF_applyEv {st : BuildSt} (e : RegEvent) (h : regWF st.reg) :
    regWF (applyEv st e).reg := by
  obtain ⟨htop, hmem⟩ := h
  have hreg' : regWF (if (aget st.reg e.target).isSome then st.reg
      else aset st.reg e.target []) := by
    by_cases h₁ : (aget st.reg e.target).isSome
    · rw [if_pos h₁]; exact ⟨htop, hmem⟩
    · rw [if_neg h₁]
      refine ⟨nodup_akeys_aset _ _ _ htop, ?_⟩
      intro p hp
      rcases mem_aset hp with hp | hp
      · subst hp; exact ⟨List.nodup_nil, by simp⟩
      · exact hmem p hp
  set reg := if (aget st.reg e.target).isSome then st.reg
    else aset st.reg e.target [] with hregdef
  obtain ⟨htop', hmem'⟩ := hreg'
  have htmW : (akeys ((aget reg e.target).getD [])).Nodup
      ∧ ∀ q ∈ (aget reg e.target).getD [], (akeys q.2).Nodup := by
    cases htm : aget reg e.target with
    | none => simp [akeys]
    | some tm =>
      have := hmem' (e.target, tm) (aget_mem htm)
      simpa using this
  set tm := (aget reg e.target).getD [] with htmdef
  have htm'W : (akeys (if (aget tm e.group).isSome then tm
      else aset tm e.group [])).Nodup
      ∧ ∀ q ∈ (if (aget tm e.group).isSome then tm else aset tm e.group []),
        (akeys q.2).Nodup := by
    by_cases h₂ : (aget tm e.group).isSome
    · rw [if_pos h₂]; exact htmW
    · rw [if_neg h₂]
      refine ⟨nodup_akeys_aset _ _ _ htmW.1, ?_⟩
      intro q hq
      rcases mem_aset hq with hq | hq
      · subst hq; exact List.nodup_nil
      · exact htmW.2 q hq
  set tm' := if (aget tm e.group).isSome then tm else aset tm e.group []
    with htm'def
  have hgmW : (akeys ((aget tm' e.group).getD [])).Nodup := by
    cases hgm : aget tm' e.group with
    | none => simp [akeys]
    | some gm => exact htm'W.2 (e.group, gm) (aget_mem hgm)
  constructor
  · show (akeys (aset reg e.target _)).Nodup
    exact nodup_akeys_aset _ _ _ htop'
  · intro p hp
    rcases mem_aset hp with hp | hp
    · rw [hp]
      refine ⟨nodup_akeys_aset _ _ _ htm'W.1, ?_⟩
      intro q hq
      rcases mem_aset hq with hq | hq
      · rw [hq]
        exact nodup_akeys_aset _ _ _ hgmW
      · exact htm'W.2 q hq
    · exact hmem' p hp

theorem regWF_foldl (evs : List RegEvent) {st : BuildSt} (h : regWF st.reg) :
    regWF ((evs.foldl applyEv st).reg) := by
  induction evs generalizing st with
  | nil => exact h
  | cons e evs ih => exact ih (regWF_applyEv e h)

theorem regWF_initSt : regWF initSt.reg := by
  constructor
  · decide
  · decide

/-! ### The sorting pass -/

theorem akeys_eq_map {α : Type} (m : AList α) :
    akeys m = m.map Prod.fst := by
  induction m with
  | nil => rfl
  | cons p rest ih => simp [akeys, ih]

theorem aget_eq_some_iff_mem {α : Type} {m : AList α}
    (h : (akeys m).Nodup) (k : String) (v : α) :
    aget m k = some v ↔ (k, v) ∈ m := by
  constructor
  · exact aget_mem
  · intro hv
    induction m with
    | nil => simp at hv
    | cons p rest ih =>
      obtain ⟨k₁, v₁⟩ := p
      simp only [akeys, List.nodup_cons] at h
      rcases List.mem_cons.mp hv with hv | hv
      · rw [show k₁ = k from congrArg Prod.fst hv.symm] at h ⊢
        simp [aget, show v₁ = v from congrArg Prod.snd hv.symm]
      · have hk : k₁ ≠ k := by
          intro hh
          apply h.1
          rw [hh, akeys_eq_map]
          exact List.mem_map.mpr ⟨(k, v), hv, rfl⟩
        simp only [aget, if_neg hk]
        exact ih h.2 hv

theorem aget_perm {α : Type} {m₁ m₂ : AList α} (hp : m₁.Perm m₂)
    (h : (akeys m₁).Nodup) (k : String) : aget m₁ k = aget m₂ k := by
  have h₂ : (akeys m₂).Nodup := by
    rw [akeys_eq_map] at h ⊢
    exact (hp.map Prod.fst).nodup_iff.mp h
  cases hv : aget m₁ k with
  | some v =>
    exact ((aget_eq_some_iff_mem h₂ k v).mpr
      (hp.mem_iff.mp ((aget_eq_some_iff_mem h k v).mp hv))).symm
  | none =>
    cases hv₂ : aget m₂ k with
    | none => rfl
    | some v =>
      have := (aget_eq_some_iff_mem h k v).mpr
        (hp.mem_iff.mpr ((aget_eq_some_iff_mem h₂ k v).mp hv₂))
      rw [this] at hv
      exact absurd hv (by simp)

theorem sortObj_perm {α : Type} (m : AList α) (h : (akeys m).Nodup) :
    (sortObj m).Perm m := by
  unfold sortObj
  have hp : ((akeys m).insertionSort jsStrLe).Perm (akeys m) :=
    List.perm_insertionSort jsStrLe (akeys m)
  refine (hp.filterMap _).trans ?_
  rw [self_eq_map_aget m h]

theorem akeys_filterMap_of_isSome {α : Type} (m : AList α) :
    ∀ (l : List String), (∀ k ∈ l, (aget m k).isSome) →
      akeys (l.filterMap (fun k => (aget m k).map (fun v => (k, v)))) = l := by
  intro l
  induction l with
  | nil => intro _; rfl
  | cons k l ih =>
    intro hl
    obtain ⟨v, hv⟩ := Option.isSome_iff_exists.mp (hl k (List.mem_cons_self k l))
    rw [List.filterMap_cons_some (by rw [hv]; rfl)]
    simp only [akeys]
    rw [ih (fun k hk => hl k (List.mem_cons_of_mem _ hk))]

theorem akeys_sortObj {α : Type} (m : AList α) :
    akeys (sortObj m) = (akeys m).insertionSort jsStrLe := by
  unfold sortObj
  exact akeys_filterMap_of_isSome m _
    (fun k hk => aget_isSome_of_mem_akeys m k
      ((List.mem_insertionSort jsStrLe).mp hk))

theorem sortObj_sorted {α : Type} (m : AList α) :
    List.Pairwise jsStrLe (akeys (sortObj m)) := by
  rw [akeys_sortObj]
  exact List.sorted_insertionSort jsStrLe (akeys m)

theorem aget_sortObj {α : Type} (m : AList α) (h : (akeys m).Nodup)
    (k : String) : aget (sortObj m) k = aget m k := by
  have hp := sortObj_perm m h
  have hs : (akeys (sortObj m)).Nodup := by
    rw [akeys_eq_map] at h ⊢
    exact ((hp.map Prod.fst).nodup_iff).mpr h
  exact aget_perm hp hs k

theorem aget_map_inner {α β : Type} (m : AList α) (f : α → β) (k : String) :
    aget (m.map (fun p => (p.1, f p.2))) k = (aget m k).map f := by
  induction m with
  | nil => rfl
  | cons p rest ih =>
    obtain ⟨k₁, v₁⟩ := p
    by_cases hk : k₁ = k
    · simp [aget, hk]
    · simp [aget, hk, ih]

theorem lookupGroup_sortAllGroups (r : Registry) (t g : String) :
    lookupGroup (sortAllGroups r) t g
      = (lookupGroup r t g).map sortObj := by
  unfold lookupGroup sortAllGroups
  rw [aget_map_inner]
  cases htm : aget r t with
  | none => rfl
  | some tm =>
    simp only [Option.map_some', Option.some_bind]
    rw [aget_map_inner]

theorem lookupRule_sortAllGroups {r : Registry} (h : regWF r)
    (t g n : String) :
    lookupRule (sortAllGroups r) t g n = lookupRule r t g n := by
  unfold lookupRule
  rw [lookupGroup_sortAllGroups]
  cases hgm : lookupGroup r t g with
  | none => rfl
  | some gm =>
    simp only [Option.map_some', Option.some_bind]
    unfold lookupGroup at hgm
    cases htm : aget r t with
    | none => rw [htm] at hgm; simp at hgm
    | some tm =>
      rw [htm, Option.some_bind] at hgm
      have htmem := (h.2 (t, tm) (aget_mem htm))
      have hgmem := htmem.2 (g, gm) (aget_mem hgm)
      exact aget_sortObj gm hgmem n

/-! ### Target-level presence -/

theorem aget_reg_applyEv_ne (st : BuildSt) (e : RegEvent) (t : String)
    (h : e.target ≠ t) : aget (applyEv st e).reg t = aget st.reg t := by
  by_cases h₁ : (aget st.reg e.target).isSome
  · simp [applyEv, h₁, aget_aset_ne _ _ _ _ h]
  · simp [applyEv, h₁, aget_aset_ne _ _ _ _ h]

theorem aget_reg_applyEv_isSome (st : BuildSt) (e : RegEvent) (t : String)
    (h : (aget st.reg t).isSome) : (aget (applyEv st e).reg t).isSome := by
  by_cases ht : e.target = t
  · subst ht
    simp [applyEv, aget_aset_self]
  · rw [aget_reg_applyEv_ne st e t ht]
    exact h

theorem aget_reg_foldl_isSome (evs : List RegEvent) (st : BuildSt)
    (t : String) (h : (aget st.reg t).isSome) :
    (aget ((evs.foldl applyEv st).reg) t).isSome := by
  induction evs generalizing st with
  | nil => exact h
  | cons e evs ih => exact ih _ (aget_reg_applyEv_isSome st e t h)

theorem aget_reg_foldl_ne (evs : List RegEvent) (st : BuildSt)
    (t : String) (h : ∀ e ∈ evs, e.target ≠ t) :
    aget ((evs.foldl applyEv st).reg) t = aget st.reg t := by
  induction evs generalizing st with
  | nil => rfl
  | cons e evs ih =>
    rw [List.foldl_cons, ih _ (fun e he => h e (List.mem_cons_of_mem _ he)),
      aget_reg_applyEv_ne st e t (h e (List.mem_cons_self _ _))]

/-! ### Placeholder substitution over a list of placeholder-free pieces -/

/-- The pieces joined with the separator between consecutive pieces. -/
def joinWith (sep : List Char) : List (List Char) → List Char
  | [] => []
  | [p] => p
  | p :: q :: rest => p ++ sep ++ joinWith sep (q :: rest)

/-- String form of `joinWith`. -/
def joinWithStr (sep : String) : List String → String
  | [] => ""
  | [p] => p
  | p :: q :: rest => p ++ sep ++ joinWithStr sep (q :: rest)

theorem joinWithStr_data (sep : String) :
    ∀ parts : List String,
      (joinWithStr sep parts).data = joinWith sep.data (parts.map String.data)
  | [] => rfl
  | [p] => rfl
  | p :: q :: rest => by
    simp only [joinWithStr, joinWith, List.map_cons, String.data_append]
    rw [joinWithStr_data sep (q :: rest)]
    simp

theorem replaceGo_joinWith (pt sub : List Char) :
    ∀ (parts : List (List Char)), (∀ p ∈ parts, '%' ∉ p) →
      replaceGo ('%' :: pt) sub (joinWith ('%' :: pt) parts).length
          (joinWith ('%' :: pt) parts)
        = joinWith sub parts
  | [], _ => rfl
  | [p], h => by
    simp only [joinWith]
    exact replaceGo_no_occur _ p (Nat.le_refl _)
      (h p (List.mem_singleton.mpr rfl))
  | p :: q :: rest, h => by
    simp only [joinWith]
    rw [replaceGo_block p (joinWith ('%' :: pt) (q :: rest)) _
      (Nat.le_refl _) (h p (List.mem_cons_self _ _))]
    rw [replaceGo_joinWith pt sub (q :: rest)
      (fun x hx => h x (List.mem_cons_of_mem _ hx))]

theorem mk_data (s : String) : String.mk s.data = s := rfl

theorem newNameOf_joinWith (parts : List String) (t : String)
    (h : ∀ p ∈ parts, '%' ∉ p.data) :
    newNameOf (joinWithStr "%target%" parts) t
      = joinWithStr
          (if t = "superSpecial" then "super specials" else t ++ "s") parts := by
  have hdata : ∀ p ∈ parts.map String.data, '%' ∉ p := by
    intro p hp
    obtain ⟨s, hs, rfl⟩ := List.mem_map.mp hp
    exact h s hs
  have key : ∀ sub : String,
      String.mk (replaceGo "%target%".data sub.data
          (joinWithStr "%target%" parts).data.length
          (joinWithStr "%target%" parts).data)
        = joinWithStr sub parts := by
    intro sub
    rw [joinWithStr_data]
    rw [show ("%target%".data) = '%' :: "target%".data from rfl]
    rw [replaceGo_joinWith "target%".data sub.data (parts.map String.data)
      hdata]
    rw [← joinWithStr_data, mk_data]
  unfold newNameOf
  by_cases ht : t = "superSpecial"
  · rw [if_pos ht, if_pos ht]
    exact key "super specials"
  · rw [if_neg ht, if_neg ht]
    exact key (t ++ "s")

/-! ### Build-level composites -/

theorem buildState_reg_wf (table : AList (List MatcherSpec)) :
    regWF (buildState includeOldFilters table initSt).reg := by
  rw [buildState_eq_foldl]
  exact regWF_foldl _ regWF_initSt

theorem buildMatchers_reg (table : AList (List MatcherSpec)) :
    (buildMatchers table).reg
      = sortAllGroups (buildState includeOldFilters table initSt).reg := by
  simp [buildMatchers, alphabeticalOrder]

theorem buildMatchers_log (table : AList (List MatcherSpec)) :
    (buildMatchers table).log
      = (buildState includeOldFilters table initSt).log := by
  simp [buildMatchers, alphabeticalOrder]

theorem lookupRule_buildMatchers (table : AList (List MatcherSpec))
    (t g n : String) :
    lookupRule (buildMatchers table).reg t g n
      = lookupRule (buildState includeOldFilters table initSt).reg t g n := by
  rw [buildMatchers_reg]
  exact lookupRule_sortAllGroups (buildState_reg_wf table) t g n

theorem initSt_values : ∀ p ∈ initSt.reg, p.2 = ([] : TargetMap) := by
  decide

theorem lookupRule_initSt (t g n : String) :
    lookupRule initSt.reg t g n = none := by
  unfold lookupRule lookupGroup
  cases htm : aget initSt.reg t with
  | none => rfl
  | some tm =>
    have h₂ : tm = [] := initSt_values (t, tm) (aget_mem htm)
    rw [h₂]
    rfl

/-- Every entry of the final registry is the compiled copy written by some
registration event resolving to its key. -/
theorem entry_source (table : AList (List MatcherSpec)) (t g n : String)
    (c : Compiled) (h : lookupRule (buildMatchers table).reg t g n = some c) :
    ∃ e ∈ eventsOf includeOldFilters table, evKey e = (t, g, n) ∧ evVal e = c := by
  rw [lookupRule_buildMatchers, buildState_eq_foldl, lookupRule_foldl] at h
  cases hgl : (List.filter (fun e => decide (evKey e = (t, g, n)))
      (eventsOf includeOldFilters table)).getLast? with
  | none =>
    rw [hgl] at h
    rw [lookupRule_initSt] at h
    exact absurd h (by simp)
  | some e =>
    rw [hgl] at h
    have hmem := List.mem_of_getLast?_eq_some hgl
    have hkey := (List.mem_filter.mp hmem).2
    refine ⟨e, (List.mem_filter.mp hmem).1, by simpa using hkey, ?_⟩
    simpa using h

/-- A pair of events with the same resolved key forces the collision
diagnostic into the log. -/
theorem dup_of_split (l₁ l₂ l₃ : List RegEvent) (e₁ e₂ : RegEvent)
    (st : BuildSt) (hkey : evKey e₁ = evKey e₂) :
    dupMsg (newNameOf e₂.spec.name e₂.target)
      ∈ (((l₁ ++ e₁ :: l₂ ++ e₂ :: l₃).foldl applyEv st).log) := by
  have hassoc : l₁ ++ e₁ :: l₂ ++ e₂ :: l₃ = (l₁ ++ e₁ :: l₂) ++ (e₂ :: l₃) := by
    simp
  rw [hassoc, List.foldl_append]
  have hsome : (lookupRule ((l₁ ++ e₁ :: l₂).foldl applyEv st).reg e₂.target
      e₂.group (newNameOf e₂.spec.name e₂.target)).isSome := by
    rw [lookupRule_foldl]
    have hmem : e₁ ∈ List.filter
        (fun e => decide (evKey e
          = (e₂.target, e₂.group, newNameOf e₂.spec.name e₂.target)))
        (l₁ ++ e₁ :: l₂) := by
      apply List.mem_filter.mpr
      exact ⟨by simp, by simp [hkey]; rfl⟩
    cases hgl : (List.filter
        (fun e => decide (evKey e
          = (e₂.target, e₂.group, newNameOf e₂.spec.name e₂.target)))
        (l₁ ++ e₁ :: l₂)).getLast? with
    | none =>
      rw [List.getLast?_eq_none_iff] at hgl
      rw [hgl] at hmem
      exact absurd hmem (by simp)
    | some x => simp
  rw [List.foldl_cons]
  exact log_mem_foldl l₃ _ (dup_emitted_applyEv _ e₂ hsome)

/-! ### State-passing renderings of the generators

The module state mutated during registry construction is `window.matchers`
(a `Registry`).  The generator bodies reference none of it, which the
state-passing renderings below make explicit: they thread the registry
through unchanged. -/

def createTypesSubmatchersW (w : Registry) (groups : List Nat) (iu : Bool)
    (ur : String) : Registry × List Submatcher :=
  (w, createTypesSubmatchers groups iu ur)

def createClassesSubmatchersW (w : Registry) (groups : List Nat) (iu : Bool)
    (ur : String) : Registry × List Submatcher :=
  (w, createClassesSubmatchers groups iu ur)

def createOrbsSubmatchersW (w : Registry) (orbs : List String)
    (groups : List Nat) (iu : Bool) (ur : String) :
    Registry × List Submatcher :=
  (w, createOrbsSubmatchers orbs groups iu ur)

def createPositionsSubmatchersW (w : Registry) (groups : List Nat)
    (iu : Bool) (ur : String) (ex : List String) (rc : Bool) :
    Registry × List Submatcher :=
  (w, createPositionsSubmatchers groups iu ur ex rc)

def createUniversalSubmatcherW (w : Registry) (groups : List Nat)
    (ur : String) : Registry × List Submatcher :=
  (w, createUniversalSubmatcher groups ur)

/-- A regex metacharacter of the JS regex grammar. -/
def isRegexMeta (c : Char) : Bool :=
  c ∈ ['\\', '^', '$', '.', '|', '?', '*', '+', '(', ')', '[', ']', '{', '}']

/-! ### Witness data: small concrete rule-spec tables -/

def wSpecHealsA : MatcherSpec :=
  { name := "Heals", targets := ["support"], regexSrc := "heals" }

def wSpecHealsB : MatcherSpec :=
  { name := "Heals", targets := ["support"], regexSrc := "recovers" }

def wSpecOld : MatcherSpec :=
  { name := "old Heals", targets := ["support"], regexSrc := "x" }

def wSpecBoost : MatcherSpec :=
  { name := "Boosts %target%", targets := ["captain", "superSpecial"],
    regexSrc := "boosts" }

def wSpecNameB : MatcherSpec :=
  { name := "b필터", targets := ["support"], regexSrc := "b" }

def wSpecNameA : MatcherSpec :=
  { name := "a필터", targets := ["support"], regexSrc := "a" }

def wTable : AList (List MatcherSpec) :=
  [("회복", [wSpecHealsA, wSpecHealsB])]

def wTable₂ : AList (List MatcherSpec) :=
  [("회복", [wSpecOld, wSpecHealsA])]

def wTable₃ : AList (List MatcherSpec) :=
  [("강화", [wSpecBoost])]

def wTable₄ : AList (List MatcherSpec) :=
  [("그룹", [wSpecNameB, wSpecNameA])]

/-! ### Claim theorems -/

/-- C5: For each taxonomy table (types, classes, orbs) and every bound
group list, the option-set generator returns exactly one Option-kind
submatcher per table entry, in table order, bound to the given groups,
whose pattern source is the bracketed entry id (bare id for classes)
unioned with the universal pattern exactly when the include-universal flag
is set; and with the default universal pattern, each generated pattern
matches the (bracketed) entry id. -/
theorem c5_option_set_generation :
    (∀ (groups : List Nat) (iu : Bool) (ur : String),
      (createTypesSubmatchers groups iu ur).length = types.length
      ∧ ∀ i : Fin types.length,
          ∃ sub, (createTypesSubmatchers groups iu ur).get? i.val = some sub
            ∧ sub.type = "option" ∧ sub.groups = groups
            ∧ sub.regexSrc = "\\[" ++ types.get i ++ "\\]"
                ++ (if iu then "|" ++ ur else ""))
    ∧ (∀ (groups : List Nat) (iu : Bool) (ur : String),
      (createClassesSubmatchers groups iu ur).length = classes.length
      ∧ ∀ i : Fin classes.length,
          ∃ sub, (createClassesSubmatchers groups iu ur).get? i.val = some sub
            ∧ sub.type = "option" ∧ sub.groups = groups
            ∧ sub.regexSrc = classes.get i ++ (if iu then "|" ++ ur else ""))
    ∧ (∀ (orbs : List String) (groups : List Nat) (iu : Bool) (ur : String),
      (createOrbsSubmatchers orbs groups iu ur).length = orbs.length
      ∧ ∀ i : Fin orbs.length,
          ∃ sub, (createOrbsSubmatchers orbs groups iu ur).get? i.val = some sub
            ∧ sub.type = "option" ∧ sub.groups = groups
            ∧ sub.regexSrc = "\\[" ++ orbs.get i ++ "\\]"
                ++ (if iu then "|" ++ ur else ""))
    ∧ (∀ (iu : Bool) (i : Fin types.length),
        rxTestSrc ("\\[" ++ types.get i ++ "\\]"
            ++ (if iu then "|" ++ "all|type" else ""))
          ("[" ++ types.get i ++ "]") = true)
    ∧ (∀ (iu : Bool) (i : Fin classes.length),
        rxTestSrc (classes.get i ++ (if iu then "|" ++ "모두" else ""))
          (classes.get i) = true)
    ∧ (∀ (iu : Bool) (i : Fin orbsFull.length),
        rxTestSrc ("\\[" ++ orbsFull.get i ++ "\\]"
            ++ (if iu then "|" ++ "모두" else ""))
          ("[" ++ orbsFull.get i ++ "]") = true) := by
  refine ⟨?_, ?_, ?_, by decide, by decide, by decide⟩
  · intro groups iu ur
    refine ⟨by simp [createTypesSubmatchers], ?_⟩
    intro i
    fin_cases i <;> exact ⟨_, rfl, rfl, rfl, rfl⟩
  · intro groups iu ur
    refine ⟨by simp [createClassesSubmatchers], ?_⟩
    intro i
    fin_cases i <;> exact ⟨_, rfl, rfl, rfl, rfl⟩
  · intro orbs groups iu ur
    refine ⟨by simp [createOrbsSubmatchers], ?_⟩
    intro i
    have hmap := List.get?_map (fun orb : String =>
        ({ type := "option"
           description := (aget orbKoMap orb).getD orb
           regexSrc := "\\[" ++ orb ++ "\\]"
             ++ (if iu then "|" ++ ur else "")
           cssClasses := [if orb.length ≤ 3 then "min-width-2"
             else if orb.length ≤ 5 then "min-width-3" else "min-width-6"]
           groups := groups } : Submatcher)) orbs i.val
    rw [List.get?_eq_get i.isLt] at hmap
    exact ⟨_, hmap, rfl, rfl, rfl⟩

/-- C6 counterexample: the generators do not escape taxonomy ids.  For the
hypothetical orb id "^" (a regex metacharacter), the generated pattern
source keeps the raw "^" (no backslash before it), and the generated
pattern does not match the bracketed id "[^]" literally. -/
theorem c6_counterexample :
    ((createOrbsSubmatchers ["^"] [1] false).get? 0).map
        (fun sub => (sub.regexSrc, rxTestSrc sub.regexSrc "[^]"))
      = some ("\\[^\\]", false) := by
  decide

/-- C6 amended: the generators interpolate ids without escaping; however
every taxonomy id actually used in the source (types, classes, the full
orb list) contains no regex metacharacter, so each generated pattern does
match its (bracketed) entry id literally. -/
theorem c6_no_meta_in_actual_ids :
    (∀ i : Fin types.length,
      (types.get i).data.all (fun c => !isRegexMeta c) = true
      ∧ ∃ sub, (createTypesSubmatchers [1] false).get? i.val = some sub
          ∧ rxTestSrc sub.regexSrc ("[" ++ types.get i ++ "]") = true)
    ∧ (∀ i : Fin classes.length,
      (classes.get i).data.all (fun c => !isRegexMeta c) = true
      ∧ ∃ sub, (createClassesSubmatchers [1] false).get? i.val = some sub
          ∧ rxTestSrc sub.regexSrc (classes.get i) = true)
    ∧ (∀ i : Fin orbsFull.length,
      (orbsFull.get i).data.all (fun c => !isRegexMeta c) = true
      ∧ ∃ sub, (createOrbsSubmatchers orbsFull [1] false).get? i.val = some sub
          ∧ rxTestSrc sub.regexSrc ("[" ++ orbsFull.get i ++ "]") = true) := by
  refine ⟨?_, ?_, ?_⟩ <;> decide

/-- C7: Number-submatcher sentinel extraction (spec-modelled, see
`extractNumber`): the unknown placeholder "?" extracts as 0, the maximal
tokens "completely" and "99+" extract as positive infinity; consequently
the "completely" value satisfies the comparator > N for every finite N,
and the "?" value satisfies >= 0. -/
theorem c7_sentinel_normalization :
    extractNumber "?" = ExtNum.fin 0
    ∧ extractNumber "completely" = ExtNum.inf
    ∧ extractNumber "99+" = ExtNum.inf
    ∧ (∀ N : ℚ, satisfiesCmp (extractNumber "completely") NumCmp.gt N = true)
    ∧ satisfiesCmp (extractNumber "?") NumCmp.ge 0 = true := by
  have hc : extractNumber "completely" = ExtNum.inf := by
    unfold extractNumber
    rw [if_pos (by decide)]
  have h99 : extractNumber "99+" = ExtNum.inf := by
    unfold extractNumber
    rw [if_pos (by decide)]
  have hrepl : (⟨replaceGo ['?'] ['0'] "?".data.length "?".data⟩ : String)
      = "0" := by decide
  have hparse : parseDec "0" = 0 := by
    have h₁ : "0".data.takeWhile Char.isDigit = ['0'] := by decide
    have h₂ : "0".data.dropWhile Char.isDigit = [] := by decide
    have h₃ : ('0'.toNat - 48 : Nat) = 0 := by decide
    unfold parseDec
    rw [h₁, h₂]
    simp [digitsVal, fracVal, h₃]
  have hq : extractNumber "?" = ExtNum.fin 0 := by
    unfold extractNumber
    rw [if_neg (by decide)]
    rw [show ("?".data) = ['?'] from rfl] at *
    rw [hrepl, hparse]
  refine ⟨hq, hc, h99, ?_, ?_⟩
  · intro N
    rw [hc]
    rfl
  · rw [hq]
    simp [satisfiesCmp]

/-- C9: The submatcher generators are pure and deterministic: their
state-passing renderings leave the registry state unchanged and produce
output independent of that state, and rebinding the same table to a
different capture-group list changes exactly the `groups` field of each
generated submatcher. -/
theorem c9_generators_pure_deterministic :
    (∀ (w w₂ : Registry) (groups : List Nat) (iu : Bool) (ur : String),
      (createTypesSubmatchersW w groups iu ur).1 = w
      ∧ (createTypesSubmatchersW w groups iu ur).2
          = (createTypesSubmatchersW w₂ groups iu ur).2)
    ∧ (∀ (w w₂ : Registry) (groups : List Nat) (iu : Bool) (ur : String),
      (createClassesSubmatchersW w groups iu ur).1 = w
      ∧ (createClassesSubmatchersW w groups iu ur).2
          = (createClassesSubmatchersW w₂ groups iu ur).2)
    ∧ (∀ (w w₂ : Registry) (orbs : List String) (groups : List Nat)
        (iu : Bool) (ur : String),
      (createOrbsSubmatchersW w orbs groups iu ur).1 = w
      ∧ (createOrbsSubmatchersW w orbs groups iu ur).2
          = (createOrbsSubmatchersW w₂ orbs groups iu ur).2)
    ∧ (∀ (w w₂ : Registry) (groups : List Nat) (iu : Bool) (ur : String)
        (ex : List String) (rc : Bool),
      (createPositionsSubmatchersW w groups iu ur ex rc).1 = w
      ∧ (createPositionsSubmatchersW w groups iu ur ex rc).2
          = (createPositionsSubmatchersW w₂ groups iu ur ex rc).2)
    ∧ (∀ (w w₂ : Registry) (groups : List Nat) (ur : String),
      (createUniversalSubmatcherW w groups ur).1 = w
      ∧ (createUniversalSubmatcherW w groups ur).2
          = (createUniversalSubmatcherW w₂ groups ur).2)
    ∧ (∀ (g₁ g₂ : List Nat) (iu : Bool) (ur : String),
      (createTypesSubmatchers g₁ iu ur).map
          (fun sub => { sub with groups := g₂ })
        = createTypesSubmatchers g₂ iu ur)
    ∧ (∀ (g₁ g₂ : List Nat) (iu : Bool) (ur : String),
      (createClassesSubmatchers g₁ iu ur).map
          (fun sub => { sub with groups := g₂ })
        = createClassesSubmatchers g₂ iu ur)
    ∧ (∀ (orbs : List String) (g₁ g₂ : List Nat) (iu : Bool) (ur : String),
      (createOrbsSubmatchers orbs g₁ iu ur).map
          (fun sub => { sub with groups := g₂ })
        = createOrbsSubmatchers orbs g₂ iu ur) := by
  refine ⟨fun w w₂ groups iu ur => ⟨rfl, rfl⟩,
    fun w w₂ groups iu ur => ⟨rfl, rfl⟩,
    fun w w₂ orbs groups iu ur => ⟨rfl, rfl⟩,
    fun w w₂ groups iu ur ex rc => ⟨rfl, rfl⟩,
    fun w w₂ groups ur => ⟨rfl, rfl⟩, ?_, ?_, ?_⟩
  · intro g₁ g₂ iu ur
    rfl
  · intro g₁ g₂ iu ur
    rfl
  · intro orbs g₁ g₂ iu ur
    induction orbs with
    | nil => rfl
    | cons o os ih =>
      simp only [createOrbsSubmatchers, List.map_cons] at ih ⊢
      rw [ih]

/-- C10: In the combined (non-rows-and-columns) position mode, the
generated "Captain" option regex (index 1, without the universal alias)
matches "the Captain" but not "Friend Captain", while the "Friend Captain"
option regex (index 0) matches "Friend Captain". -/
theorem c10_combined_position_captain_options :
    (((createPositionsSubmatchers [1] false "모두" [] false).get? 1).map
        (fun sub => (sub.description,
          rxTestSrc sub.regexSrc "the Captain",
          rxTestSrc sub.regexSrc "Friend Captain")))
      = some ("선장", true, false)
    ∧ (((createPositionsSubmatchers [1] false "모두" [] false).get? 0).map
        (fun sub => (sub.description, rxTestSrc sub.regexSrc "Friend Captain")))
      = some ("친구 선장", true) := by
  constructor <;> decide

/-- C1: When exactly two registration events resolve to the same
(target, group, name) key during registry construction, the completed
registry holds the compiled copy of the second (later-registered) spec at
that key, and the collision diagnostic for that name is in the emitted
log; the build is a total function of the spec table, so registration
continues past the collision. -/
theorem c1_collision_overwrite_and_diagnostic
    (table : AList (List MatcherSpec)) (t g n : String) (e₁ e₂ : RegEvent)
    (hpair : (eventsOf includeOldFilters table).filter
        (fun e => decide (evKey e = (t, g, n))) = [e₁, e₂]) :
    lookupRule (buildMatchers table).reg t g n = some (evVal e₂)
      ∧ dupMsg n ∈ (buildMatchers table).log := by
  constructor
  · rw [lookupRule_buildMatchers, buildState_eq_foldl, lookupRule_foldl,
      hpair]
    rfl
  · obtain ⟨l₁, l₂₃, hsplit, _, hp₁, hrest⟩ :=
      List.filter_eq_cons_iff.mp hpair
    obtain ⟨l₂, l₃, hsplit₂, _, hp₂, _⟩ := List.filter_eq_cons_iff.mp hrest
    have hk₁ : evKey e₁ = (t, g, n) := by simpa using hp₁
    have hk₂ : evKey e₂ = (t, g, n) := by simpa using hp₂
    have hkey : evKey e₁ = evKey e₂ := by rw [hk₁, hk₂]
    have hn : newNameOf e₂.spec.name e₂.target = n :=
      congrArg (fun x => x.2.2) hk₂
    rw [buildMatchers_log, buildState_eq_foldl, hsplit, hsplit₂, ← hn]
    have := dup_of_split l₁ l₂ l₃ e₁ e₂ initSt hkey
    simpa using this

/-- C2: With the include-legacy flag disabled (the module constant
`includeOldFilters` is false), every entry of the built registry derives
from a spec whose name does not begin with "old" (case-insensitive): no
registry entry is derived from a legacy spec. -/
theorem c2_legacy_specs_skipped (table : AList (List MatcherSpec))
    (t g n : String) (c : Compiled)
    (h : lookupRule (buildMatchers table).reg t g n = some c) :
    ∃ m, specInTable m table ∧ isOldName m.name = false ∧ t ∈ m.targets
      ∧ n = newNameOf m.name t ∧ c = compileCopy m t g n := by
  obtain ⟨e, hev, hkey, hval⟩ := entry_source table t g n c h
  obtain ⟨hspec, hold, htgt⟩ := mem_eventsOf hev
  have ht : e.target = t := congrArg (fun x => x.1) hkey
  have hg : e.group = g := congrArg (fun x => x.2.1) hkey
  have hn : newNameOf e.spec.name e.target = n :=
    congrArg (fun x => x.2.2) hkey
  refine ⟨e.spec, hspec, ?_, ht ▸ htgt, by rw [← hn, ht], ?_⟩
  · simpa [includeOldFilters] using hold
  · rw [← hval]
    unfold evVal
    rw [hn, ht, hg]

/-- C3: Registry names: every stored entry is keyed and named by the
spec name with the `%target%` placeholder resolved for its target; and
the resolution replaces every occurrence of the placeholder, with
`target + "s"` in general and "super specials" for the superSpecial
target. -/
theorem c3_target_placeholder_resolution :
    (∀ (table : AList (List MatcherSpec)) (t g n : String) (c : Compiled),
      lookupRule (buildMatchers table).reg t g n = some c →
        c.name = n ∧ ∃ m, specInTable m table ∧ n = newNameOf m.name t)
    ∧ (∀ (parts : List String) (t : String), (∀ p ∈ parts, '%' ∉ p.data) →
        newNameOf (joinWithStr "%target%" parts) t
          = joinWithStr
              (if t = "superSpecial" then "super specials" else t ++ "s")
              parts) := by
  constructor
  · intro table t g n c h
    obtain ⟨e, hev, hkey, hval⟩ := entry_source table t g n c h
    have ht : e.target = t := congrArg (fun x => x.1) hkey
    have hn : newNameOf e.spec.name e.target = n :=
      congrArg (fun x => x.2.2) hkey
    constructor
    · rw [← hval]
      exact hn
    · exact ⟨e.spec, (mem_eventsOf hev).1, by rw [← hn, ht]⟩
  · exact newNameOf_joinWith

/-- C4: With alphabetical ordering enabled, every group mapping of the
final registry is the pre-sort mapping with its rule names in ascending
JS string order (UTF-16 code-unit lexicographic), containing exactly the
same (name, rule) bindings: sorting adds, drops and changes nothing. -/
theorem c4_alphabetical_order (table : AList (List MatcherSpec))
    (t g : String) (gm₀ : GroupMap)
    (h : lookupGroup (buildState includeOldFilters table initSt).reg t g
      = some gm₀) :
    ∃ gm₁, lookupGroup (buildMatchers table).reg t g = some gm₁
      ∧ List.Pairwise jsStrLe (akeys gm₁) ∧ gm₁.Perm gm₀ := by
  refine ⟨sortObj gm₀, ?_, sortObj_sorted gm₀, ?_⟩
  · rw [buildMatchers_reg, lookupGroup_sortAllGroups, h]
    rfl
  · have hwf := buildState_reg_wf table
    unfold lookupGroup at h
    cases htm : aget (buildState includeOldFilters table initSt).reg t with
    | none => rw [htm] at h; exact absurd h (by simp)
    | some tm =>
      rw [htm, Option.some_bind] at h
      exact sortObj_perm gm₀
        ((hwf.2 (t, tm) (aget_mem htm)).2 (g, gm₀) (aget_mem h))

/-- C8: Every target in the fixed closed list of applicability kinds is
present in the built registry with a (possibly empty) mapping — never an
error — and a target that no rule spec declares keeps an empty mapping. -/
theorem c8_unknown_target_empty_mapping (table : AList (List MatcherSpec)) :
    ∀ t ∈ allTargets, ∃ tm, aget (buildMatchers table).reg t = some tm
      ∧ ((∀ m, specInTable m table → t ∉ m.targets) → tm = []) := by
  intro t ht
  have hinit : aget initSt.reg t = some [] := by
    fin_cases ht <;> decide
  have hsome : (aget (buildState includeOldFilters table initSt).reg t).isSome := by
    rw [buildState_eq_foldl]
    exact aget_reg_foldl_isSome _ _ _ (by rw [hinit]; rfl)
  obtain ⟨tm, htm⟩ := Option.isSome_iff_exists.mp hsome
  refine ⟨tm.map (fun q => (q.1, sortObj q.2)), ?_, ?_⟩
  · rw [buildMatchers_reg]
    unfold sortAllGroups
    rw [aget_map_inner, htm]
    rfl
  · intro hnone
    have hne : ∀ e ∈ eventsOf includeOldFilters table, e.target ≠ t := by
      intro e he hte
      obtain ⟨hspec, _, htgt⟩ := mem_eventsOf he
      exact (hnone e.spec hspec) (hte ▸ htgt)
    have heq : aget (buildState includeOldFilters table initSt).reg t
        = aget initSt.reg t := by
      rw [buildState_eq_foldl]
      exact aget_reg_foldl_ne _ _ _ hne
    rw [heq, hinit] at htm
    injection htm with h₂
    rw [← h₂]
    rfl

/-! ### Witnesses -/

/-- C1 witness: a table with two "Heals" support specs in one group; the
filtered event sequence for the key is exactly the pair, the final entry
is the second compiled copy, and the diagnostic was logged. -/
theorem c1_witness :
    lookupRule (buildMatchers wTable).reg "support" "회복" "Heals"
      = some (evVal { group := "회복", spec := wSpecHealsB, target := "support" })
      ∧ dupMsg "Heals" ∈ (buildMatchers wTable).log :=
  c1_collision_overwrite_and_diagnostic wTable "support" "회복" "Heals"
    { group := "회복", spec := wSpecHealsA, target := "support" }
    { group := "회복", spec := wSpecHealsB, target := "support" }
    (by decide)

/-- C2 witness: a table with a legacy spec and a live one; the surviving
entry derives from the live spec. -/
theorem c2_witness :
    ∃ m, specInTable m wTable₂ ∧ isOldName m.name = false
      ∧ "support" ∈ m.targets
      ∧ "Heals" = newNameOf m.name "support"
      ∧ compileCopy wSpecHealsA "support" "회복" "Heals"
          = compileCopy m "support" "회복" "Heals" :=
  c2_legacy_specs_skipped wTable₂ "support" "회복" "Heals"
    (compileCopy wSpecHealsA "support" "회복" "Heals") (by decide)

/-- C3 witness: the "Boosts %target%" rule stored for the superSpecial
target, and a concrete placeholder substitution. -/
theorem c3_witness :
    ((compileCopy wSpecBoost "superSpecial" "강화" "Boosts super specials").name
        = "Boosts super specials"
      ∧ ∃ m, specInTable m wTable₃
          ∧ "Boosts super specials" = newNameOf m.name "superSpecial")
    ∧ newNameOf (joinWithStr "%target%" ["Boosts ", ""]) "superSpecial"
        = joinWithStr "super specials" ["Boosts ", ""] :=
  ⟨c3_target_placeholder_resolution.1 wTable₃ "superSpecial" "강화"
      "Boosts super specials"
      (compileCopy wSpecBoost "superSpecial" "강화" "Boosts super specials")
      (by decide),
   c3_target_placeholder_resolution.2 ["Boosts ", ""] "superSpecial"
      (by decide)⟩

/-- C4 witness: a group registered with names out of order is re-keyed in
ascending order with the same bindings. -/
theorem c4_witness :
    ∃ gm₁, lookupGroup (buildMatchers wTable₄).reg "support" "그룹" = some gm₁
      ∧ List.Pairwise jsStrLe (akeys gm₁)
      ∧ gm₁.Perm
          [("b필터", compileCopy wSpecNameB "support" "그룹" "b필터"),
           ("a필터", compileCopy wSpecNameA "support" "그룹" "a필터")] :=
  c4_alphabetical_order wTable₄ "support" "그룹"
    [("b필터", compileCopy wSpecNameB "support" "그룹" "b필터"),
     ("a필터", compileCopy wSpecNameA "support" "그룹" "a필터")]
    (by decide)

/-- C8 witness: the "captain" target, which no spec of the witness table
declares, is present with an empty mapping. -/
theorem c8_witness :
    ∃ tm, aget (buildMatchers wTable).reg "captain" = some tm
      ∧ ((∀ m, specInTable m wTable → "captain" ∉ m.targets) → tm = []) :=
  c8_unknown_target_empty_mapping wTable "captain" (by decide)

end OptcMatchers
